import Mathlib

/-!
Shallow embedding of the data-preparation pipeline of the CSV dashboard:
the helpers `parseValue`, `convertDataTypes`, `sortDataByKey`, `sampleData`
from `src/helpers.ts`, and the derived `displayData` view of
`src/components/AIDashboard.tsx`.

Modelling conventions:
* A JS value of type `string | number` is a `TypedValue`.  Every number the
  pipeline produces comes from parsing a decimal string, so numbers are
  modelled exactly as rationals (`ℚ`); `none : Option ℚ` models `NaN` where
  a parse can fail.
* A JS data object (`Record<string, string | number>`) is an
  insertion-ordered association list `DataRow`; reading a missing property
  yields `undefined`, modelled by `Option`.
* `Array.prototype.sort` is, per ECMA-262, a stable comparison sort; it is
  modelled by a stable insertion sort (`jsStableSort`), which agrees with
  every stable sort whenever the comparator is consistent, and is what JS
  engines themselves run on short arrays.
* `String.prototype.localeCompare` with default locale is modelled by
  code-point lexicographic comparison; on the digit/lowercase-ASCII strings
  appearing below the two orders coincide.
-/

/-- A typed field value: a JS value of type `string | number`.  JS numbers
are modelled as exact decimals (rationals). -/
inductive TypedValue where
  | num (q : ℚ)
  | str (s : String)
deriving DecidableEq

/-- One data record: a JS object, i.e. an insertion-ordered map from field
names to values (`Record<string, string | number>` in the source). -/
abbrev DataRow := List (String × TypedValue)

/-- The characters treated as whitespace by JS string trimming and by
`ToNumber` on strings (ECMA-262 `TrimString` / `StrWhiteSpaceChar`). -/
def jsIsSpace (c : Char) : Bool :=
  c = ' ' || c = '\t' || c = '\n' || c = '\r' || c = '\x0b' || c = '\x0c' ||
  c = '\u00A0' || c = '\u1680' || c = '\u2000' || c = '\u2001' || c = '\u2002' ||
  c = '\u2003' || c = '\u2004' || c = '\u2005' || c = '\u2006' || c = '\u2007' ||
  c = '\u2008' || c = '\u2009' || c = '\u200A' || c = '\u2028' || c = '\u2029' ||
  c = '\u202F' || c = '\u205F' || c = '\u3000' || c = '\uFEFF'

/-- Strip leading and trailing JS whitespace from a character list. -/
def jsTrimList (l : List Char) : List Char :=
  ((l.dropWhile jsIsSpace).reverse.dropWhile jsIsSpace).reverse

/-- `String.prototype.trim`. -/
def jsTrim (s : String) : String :=
  String.mk (jsTrimList s.data)

/-- Numeric value of a big-endian list of decimal digit characters (the
usual left-to-right accumulation; non-digit characters never reach it). -/
def digitsToNat (ds : List Char) : Nat :=
  ds.foldl (fun n c => 10 * n + (c.toNat - 48)) 0

/-- Read the digits of an exponent part: the whole remaining input must be
a nonempty digit string. -/
def readExpDigits (cs : List Char) : Option Int :=
  if (cs.takeWhile Char.isDigit).isEmpty || !(cs.dropWhile Char.isDigit).isEmpty then none
  else some (digitsToNat (cs.takeWhile Char.isDigit))

/-- Read an optional exponent part (`e`/`E`, optional sign, digits) that
must extend to the end of the input; absence of an exponent is exponent 0. -/
def readExpPart : List Char → Option Int
  | [] => some 0
  | c :: rest =>
    if c = 'e' || c = 'E' then
      match rest with
      | '+' :: r2 => readExpDigits r2
      | '-' :: r2 => (readExpDigits r2).map (fun e => -e)
      | r2 => readExpDigits r2
    else none

/-- The exact value of a decimal literal with integer digits `ip`,
fractional digits `fp` and decimal exponent `e` (`StrDecimalLiteral`). -/
def decValue (ip fp : List Char) (e : Int) : ℚ :=
  ((digitsToNat ip * 10 ^ fp.length + digitsToNat fp : ℚ) / 10 ^ fp.length) * 10 ^ e

/-- Read an unsigned decimal literal covering the whole input:
`digits [. digits] [exp]` or `. digits [exp]`. -/
def readUnsigned (cs : List Char) : Option ℚ :=
  match cs.dropWhile Char.isDigit with
  | '.' :: r2 =>
      if (cs.takeWhile Char.isDigit).isEmpty && (r2.takeWhile Char.isDigit).isEmpty then none
      else (readExpPart (r2.dropWhile Char.isDigit)).map
        (fun e => decValue (cs.takeWhile Char.isDigit) (r2.takeWhile Char.isDigit) e)
  | _ =>
      if (cs.takeWhile Char.isDigit).isEmpty then none
      else (readExpPart (cs.dropWhile Char.isDigit)).map
        (fun e => decValue (cs.takeWhile Char.isDigit) [] e)

/-- ECMA-262 `ToNumber` applied to a string (`Number(value)` in the
source): trim JS whitespace, map the empty remainder to 0, otherwise read
an optionally signed decimal literal.  `none` models `NaN`.  The
non-decimal literal forms (hex/octal/binary, `Infinity`) are not modelled;
they never arise from number-to-string conversion and only widen the set
of strings coerced to numbers. -/
def jsToNumber (s : String) : Option ℚ :=
  match jsTrimList s.data with
  | [] => some 0
  | c :: rest =>
    if c = '+' then readUnsigned rest
    else if c = '-' then (readUnsigned rest).map (fun q => -q)
    else readUnsigned (c :: rest)

/-- `parseValue` from `src/helpers.ts`: keep the empty string as text,
otherwise coerce to a number exactly when `Number(value)` is not `NaN` and
the trimmed value is nonempty.  (The source's `null`/`undefined` checks
are dead code under its own `string` type annotation.) -/
def parseValue (value : String) : TypedValue :=
  if value = "" then .str value
  else
    match jsToNumber value with
    | some n => if jsTrim value ≠ "" then .num n else .str value
    | none => .str value

/-- `convertDataTypes` from `src/helpers.ts`: apply `parseValue` to every
field of every row (JS `for..in` visits keys in insertion order). -/
def convertDataTypes (data : List (List (String × String))) : List DataRow :=
  data.map (fun row => row.map (fun kv => (kv.1, parseValue kv.2)))

/-- Little-endian base-10 digits computed with an explicit fuel bound
(adequate whenever `n ≤ fuel`); structurally recursive so that it
evaluates inside the kernel.  Agrees with `Nat.digits 10` (lemma below). -/
def natDigitsRev : Nat → Nat → List Nat
  | 0, _ => []
  | fuel + 1, n => if n = 0 then [] else n % 10 :: natDigitsRev fuel (n / 10)

/-- The character of a decimal digit. -/
def digitChar (d : Nat) : Char := Char.ofNat (48 + d)

/-- Decimal digit characters of `n`, most significant first (`"0"` for 0),
as produced by JS integer-to-string conversion. -/
def renderNat (n : Nat) : List Char :=
  if n = 0 then ['0'] else ((natDigitsRev n n).reverse.map digitChar)

/-- The smallest `k ≤ d` with `d ∣ 10 ^ k`, if any: the number of decimal
places needed to write a fraction with denominator `d` exactly.  (If
`d ∣ 10 ^ j` for any `j` then the minimal such `j` is at most `d`.) -/
def decScale (d : Nat) : Option Nat :=
  (List.range (d + 1)).find? (fun k => 10 ^ k % d == 0)

/-- The digit characters of `F` padded with leading zeros to `k` places:
the fractional part of a decimal printed with `k` decimal places. -/
def fracChars (F k : Nat) : List Char :=
  List.replicate (k - (renderNat F).length) '0' ++ renderNat F

/-- Nonnegative case of JS number-to-string: plain positional decimal
notation with the minimal number of decimal places.  (For magnitudes
outside `[1e-6, 1e21)` JS switches to exponent notation; the printed
string denotes the same value either way.)  The `none` branch is
unreachable for the exact-decimal values this model manipulates. -/
def renderPosQ (q : ℚ) : List Char :=
  match decScale q.den with
  | some k =>
      let N := q.num.toNat * 10 ^ k / q.den
      if k = 0 then renderNat N
      else renderNat (N / 10 ^ k) ++ '.' :: fracChars (N % 10 ^ k) k
  | none => ['0']

/-- JS `String()` applied to a number (ECMA-262 `Number::toString`,
base 10), for the exact-decimal values of this model. -/
def jsNumToString (q : ℚ) : String :=
  if q < 0 then String.mk ('-' :: renderPosQ (-q)) else String.mk (renderPosQ q)

/-- JS `String()` applied to a possibly missing `string | number` value:
numbers print in base 10, strings are unchanged, and a missing property
(`undefined`) prints as `"undefined"`. -/
def jsStringOfVal : Option TypedValue → String
  | some (.num q) => jsNumToString q
  | some (.str s) => s
  | none => "undefined"

/-- Sign of the JS comparator result `a - b` for two numbers. -/
def cmpQ (a b : ℚ) : Ordering :=
  if a < b then .lt else if b < a then .gt else .eq

/-- Code-point lexicographic comparison of character lists. -/
def cmpCharList : List Char → List Char → Ordering
  | [], [] => .eq
  | [], _ :: _ => .lt
  | _ :: _, [] => .gt
  | a :: as, b :: bs => if a < b then .lt else if b < a then .gt else cmpCharList as bs

/-- Model of `String.prototype.localeCompare` under the default locale:
code-point lexicographic order (the two agree on the digit and
lowercase-ASCII strings compared in this development). -/
def localeCmp (s t : String) : Ordering :=
  cmpCharList s.data t.data

/-- The inline comparator of `sortDataByKey`: if both values at the key
are numbers, compare numerically (`aVal - bVal`); otherwise stringify both
(`String(aVal)`, `String(bVal)`) and compare with `localeCompare`. -/
def cmpVals (aVal bVal : Option TypedValue) : Ordering :=
  match aVal, bVal with
  | some (.num a), some (.num b) => cmpQ a b
  | _, _ => localeCmp (jsStringOfVal aVal) (jsStringOfVal bVal)

/-- Stable insertion of `a` into a list: `a` goes before the first element
it does not compare greater than (so earlier-input elements stay first on
ties). -/
def insertCmp (cmp : α → α → Ordering) (a : α) : List α → List α
  | [] => [a]
  | x :: xs => if cmp a x = .gt then x :: insertCmp cmp a xs else a :: x :: xs

/-- Stable comparison sort, the model of `Array.prototype.sort` (ECMA-262
requires a stable sort; all stable sorts agree when the comparator is
consistent). -/
def jsStableSort (cmp : α → α → Ordering) : List α → List α
  | [] => []
  | a :: l => insertCmp cmp a (jsStableSort cmp l)

/-- `sortDataByKey` from `src/helpers.ts`: copy the data (`[...data]`) and
sort it by the value at `key` with the numeric-vs-lexical comparator. -/
def sortDataByKey (data : List DataRow) (key : String) : List DataRow :=
  jsStableSort (fun a b => cmpVals (a.lookup key) (b.lookup key)) data

/-- Follows the spec's words for the mixed-type case of the Key-Aware
Comparator: the whole column ordered by lexical string comparison, with
numeric values stringified and compared character-wise among themselves as
well as against the text values, in one pass. -/
def specLexicalSortByKey (data : List DataRow) (key : String) : List DataRow :=
  jsStableSort
    (fun a b => localeCmp (jsStringOfVal (a.lookup key)) (jsStringOfVal (b.lookup key))) data

/-- The loop of `sampleData`: `for (let i = 0; i < data.length; i += step)
{ sampled.push(data[i]); if (sampled.length >= maxPoints) break; }`.
The fuel argument makes the recursion structural; fuel `data.length`
reproduces the loop exactly: when the step is at least 1 the loop runs at
most `data.length` iterations, and otherwise (only reachable with
`maxPoints ≤ 1`) it breaks after its first push. -/
def sampleLoop [Inhabited α] (data : List α) (step maxPoints : Int) :
    Nat → Int → List α → List α
  | 0, _, sampled => sampled
  | fuel + 1, i, sampled =>
    if i < (data.length : Int) then
      let sampled := sampled ++ [data.getD i.toNat default]
      if maxPoints ≤ (sampled.length : Int) then sampled
      else sampleLoop data step maxPoints fuel (i + step) sampled
    else sampled

/-- `sampleData` from `src/helpers.ts`: return the data unchanged when its
length is at most `maxPoints`, otherwise walk it with stride
`Math.floor(data.length / maxPoints)` collecting at most `maxPoints`
elements.  `Int.fdiv` is floored division, as `Math.floor` of a real
quotient; for `maxPoints = 0` JS would produce the step `Infinity`, but
that value is dead: the loop breaks after its first push whenever
`maxPoints ≤ 1`.  The source's default argument is 100; callers here pass
`maxPoints` explicitly. -/
def sampleData [Inhabited α] (data : List α) (maxPoints : Int) : List α :=
  if (data.length : Int) ≤ maxPoints then data
  else
    let step := Int.fdiv (data.length : Int) maxPoints
    sampleLoop data step maxPoints data.length 0 []

/-- The derived `displayData` memo of `AIDashboard.tsx`: empty when the
raw dataset is empty or no X-axis key is selected (`!selectedXAxis`),
otherwise the raw data sorted by the selected key and sampled to at most
100 points. -/
def displayData (rawData : List DataRow) (selectedXAxis : String) : List DataRow :=
  if rawData.length = 0 ∨ selectedXAxis = "" then []
  else sampleData (sortDataByKey rawData selectedXAxis) 100

/-- Error condition of the spec's Even-Stride Sampler contract. -/
inductive SampleError where
  | invalidArgument
deriving DecidableEq

/-- Follows the spec's words for the Even-Stride Sampler (sections 4.4 and
7): `maxPoints ≤ 0` is an input contract violation that fails with an
InvalidArgument condition; positive `maxPoints` samples as the code does. -/
def sampleDataSpec [Inhabited α] (data : List α) (maxPoints : Int) :
    Except SampleError (List α) :=
  if maxPoints ≤ 0 then .error .invalidArgument
  else .ok (sampleData data maxPoints)

/-- A one-field row with a numeric value at key `"v"`. -/
def vNum (q : ℚ) : DataRow := [("v", TypedValue.num q)]

/-- A one-field row with a text value at key `"v"`. -/
def vStr (s : String) : DataRow := [("v", TypedValue.str s)]

/-- A mixed column: the numbers 2 and 10 alongside the text `"a"`. -/
def mixedColumn : List DataRow := [vNum 2, vNum 10, vStr "a"]

/-- A single sample row. -/
def oneRow : DataRow := [("Age", TypedValue.num 1)]

/-- A row with a numeric `Age` field. -/
def mkAgeRow (j : Nat) : DataRow := [("Age", TypedValue.num j)]

/-- 1000 sequential records with `Age` running 0..999. -/
def ages1000 : List DataRow := (List.range 1000).map mkAgeRow

/-! ### The even-stride sampler -/

/-- One loop iteration accounts for `step` of the `R` remaining elements:
recurrence for the ceiling division counting the loop's iterations. -/
theorem cdiv_sub_step {R s : Nat} (hs : 0 < s) (hR : 0 < R) :
    (R + s - 1) / s = (R - s + s - 1) / s + 1 := by
  have e1 : R + s - 1 = (R - 1) + s := by omega
  rw [e1, Nat.add_div_right _ hs]
  rcases le_or_lt R s with h | h
  · have e0 : R - s = 0 := by omega
    rw [e0]
    have h1 : (R - 1) / s = 0 := Nat.div_eq_of_lt (by omega)
    have h2 : (0 + s - 1) / s = 0 := Nat.div_eq_of_lt (by omega)
    omega
  · have e2 : R - s + s - 1 = (R - s - 1) + s := by omega
    rw [e2, Nat.add_div_right _ hs]
    have e3 : R - 1 = (R - s - 1) + s := by omega
    rw [e3, Nat.add_div_right _ hs]

/-- Splitting off the first element of a `map` over `List.range`. -/
theorem map_range_succ_shift {β : Type} (g : Nat → β) (t : Nat) :
    (List.range (t + 1)).map g = g 0 :: (List.range t).map (fun j => g (j + 1)) := by
  rw [List.range_succ_eq_map, List.map_cons, List.map_map]
  exact congrArg _ (List.map_congr_left (fun a _ => rfl))

/-- Closed form of the sampling loop for a positive stride: starting at
index `i` with accumulator `acc` (not yet full), the loop appends the
elements at `i, i + step, i + 2·step, …`, stopping when `maxPoints`
elements have been collected or the index runs past the end — whichever
happens first, as the `min` expresses. -/
theorem sampleLoop_closed {α : Type} [Inhabited α] (data : List α) (step mp : Int)
    (hstep : 1 ≤ step) :
    ∀ (fuel : Nat) (i : Int) (acc : List α), 0 ≤ i →
      data.length - i.toNat ≤ fuel → (acc.length : Int) < mp →
      sampleLoop data step mp fuel i acc =
        acc ++ (List.range (min (mp.toNat - acc.length)
            ((data.length - i.toNat + step.toNat - 1) / step.toNat))).map
          (fun j => data.getD (i.toNat + j * step.toNat) default) := by
  intro fuel
  induction fuel with
  | zero =>
    intro i acc hi hfuel hacc
    have hR : data.length - i.toNat = 0 := by omega
    have hdiv : (data.length - i.toNat + step.toNat - 1) / step.toNat = 0 := by
      rw [hR]; exact Nat.div_eq_of_lt (by omega)
    simp [sampleLoop, hdiv]
  | succ fuel ih =>
    intro i acc hi hfuel hacc
    by_cases hlt : i < (data.length : Int)
    · have hins : i.toNat < data.length := by omega
      have hR : 0 < data.length - i.toNat := by omega
      have hs : 0 < step.toNat := by omega
      have hdiv1 : 1 ≤ (data.length - i.toNat + step.toNat - 1) / step.toNat := by
        rw [Nat.one_le_div_iff hs]; omega
      simp only [sampleLoop, if_pos hlt]
      by_cases hstop : mp ≤ ((acc ++ [data.getD i.toNat default]).length : Int)
      · rw [if_pos hstop]
        simp only [List.length_append, List.length_singleton] at hstop
        have hmp : mp.toNat - acc.length = 1 := by omega
        rw [hmp, Nat.min_eq_left hdiv1]
        simp [List.range_succ]
      · rw [if_neg hstop]
        simp only [List.length_append, List.length_singleton] at hstop
        have htn : (i + step).toNat = i.toNat + step.toNat := by omega
        have hrec := ih (i + step) (acc ++ [data.getD i.toNat default])
          (by omega) (by omega)
          (by simp only [List.length_append, List.length_singleton]; omega)
        rw [hrec]
        simp only [List.length_append, List.length_singleton, htn]
        have hR2 : data.length - (i.toNat + step.toNat) + step.toNat - 1 =
            data.length - i.toNat - step.toNat + step.toNat - 1 := by omega
        rw [hR2]
        have hA : mp.toNat - acc.length = (mp.toNat - (acc.length + 1)) + 1 := by omega
        have hmin : ∀ a c : Nat, min (a + 1) (c + 1) = min a c + 1 := by omega
        rw [hA, cdiv_sub_step hs hR, hmin, map_range_succ_shift]
        simp only [List.append_assoc, List.singleton_append]
        congr 1
        congr 1
        · simp
        · apply List.map_congr_left
          intro j _
          have harith : i.toNat + (j + 1) * step.toNat =
              i.toNat + step.toNat + j * step.toNat := by ring_nf
          rw [harith]
    · have hR : data.length - i.toNat = 0 := by omega
      have hdiv : (data.length - i.toNat + step.toNat - 1) / step.toNat = 0 := by
        rw [hR]; exact Nat.div_eq_of_lt (by omega)
      simp [sampleLoop, if_neg hlt, hdiv]

/-- Unfolding `sampleData` in the downsampling case: for `1 ≤ maxPoints <
length` the result is exactly the elements at indices `0, stride,
2·stride, …` with `stride = ⌊length / maxPoints⌋`, `maxPoints` of them
(the count cap always fires no later than the end of the data, since
`maxPoints · stride ≤ length`). -/
theorem sampleData_closed {α : Type} [Inhabited α] (data : List α) (mp : Int)
    (hmp : 1 ≤ mp) (hlen : mp < (data.length : Int)) :
    sampleData data mp = (List.range mp.toNat).map
      (fun j => data.getD (j * (data.length / mp.toNat)) default) := by
  have hmpn : 0 < mp.toNat := by omega
  have hle : mp.toNat ≤ data.length := by omega
  have hsn : 1 ≤ data.length / mp.toNat := (Nat.one_le_div_iff hmpn).2 hle
  have hstep : Int.fdiv (data.length : Int) mp = ((data.length / mp.toNat : Nat) : Int) := by
    rw [Int.fdiv_eq_ediv _ (by omega)]
    rw [show (mp : Int) = ((mp.toNat : Nat) : Int) by omega]
    exact_mod_cast (Int.natCast_div data.length mp.toNat).symm
  rw [sampleData, if_neg (by omega)]
  rw [hstep]
  rw [sampleLoop_closed data _ mp (by exact_mod_cast hsn) data.length 0 []
    le_rfl (by simp) (by simp; omega)]
  have hbound : mp.toNat ≤
      (data.length - (0 : Int).toNat + ((data.length / mp.toNat : Nat) : Int).toNat - 1) /
        ((data.length / mp.toNat : Nat) : Int).toNat := by
    simp only [Int.toNat_zero, Nat.sub_zero, Int.toNat_natCast]
    calc mp.toNat = mp.toNat * (data.length / mp.toNat) / (data.length / mp.toNat) :=
          (Nat.mul_div_cancel _ (by omega)).symm
      _ ≤ data.length / (data.length / mp.toNat) :=
          Nat.div_le_div_right (Nat.mul_div_le data.length mp.toNat)
      _ ≤ (data.length + data.length / mp.toNat - 1) / (data.length / mp.toNat) :=
          Nat.div_le_div_right (by omega)
  simp only [List.length_nil, Nat.sub_zero, List.nil_append]
  rw [Nat.min_eq_left hbound]
  apply List.map_congr_left
  intro j _
  simp only [Int.toNat_zero, Int.toNat_natCast, Nat.zero_add]

/-- C6: the sampler bound.  For positive `maxPoints` the output has at
most `maxPoints` elements, and a dataset that already fits is returned
unchanged (the very same sequence). -/
theorem c6_sampler_bound {α : Type} [Inhabited α] (data : List α) (m : Int) (hm : 0 < m) :
    ((sampleData data m).length : Int) ≤ m ∧
    ((data.length : Int) ≤ m → sampleData data m = data) := by
  constructor
  · by_cases h : (data.length : Int) ≤ m
    · rw [sampleData, if_pos h]; exact h
    · rw [sampleData_closed data m (by omega) (by omega)]
      simp only [List.length_map, List.length_range]
      omega
  · intro h
    rw [sampleData, if_pos h]

/-- Witness for C6 at a concrete input: one row, `maxPoints = 100`. -/
theorem c6_sampler_bound_witness :
    (0 : Int) < 100 ∧ ((sampleData [oneRow] 100).length : Int) ≤ 100 ∧
    (([oneRow] : List DataRow).length : Int) ≤ 100 ∧ sampleData [oneRow] 100 = [oneRow] :=
  ⟨by norm_num, (c6_sampler_bound [oneRow] 100 (by norm_num)).1, by simp,
    (c6_sampler_bound [oneRow] 100 (by norm_num)).2 (by simp)⟩

/-- C7: in the downsampling case the sampler takes exactly the elements at
indices `0, stride, 2·stride, …` with `stride = ⌊length / maxPoints⌋`,
stopping as soon as `maxPoints` elements are collected or the index runs
past the end (with this stride the count cap is what stops the loop, after
exactly `maxPoints` elements, all of whose indices are in bounds). -/
theorem c7_stride_indices {α : Type} [Inhabited α] (data : List α) (m : Int)
    (hm : 1 ≤ m) (hlen : m < (data.length : Int)) :
    sampleData data m = (List.range m.toNat).map
      (fun j => data.getD (j * (data.length / m.toNat)) default) :=
  sampleData_closed data m hm hlen

/-- Witness for C7, the spec's large-dataset scenario: 1000 sequential
records with `Age = 0..999` and `maxPoints = 100` give stride 10 and
exactly the 100 records at indices 0, 10, …, 990, in order. -/
theorem c7_stride_indices_witness :
    (1 : Int) ≤ 100 ∧ (100 : Int) < (ages1000.length : Int) ∧
    sampleData ages1000 100 = (List.range 100).map (fun j => mkAgeRow (10 * j)) := by
  have hlen : ages1000.length = 1000 := by simp [ages1000]
  refine ⟨by norm_num, by rw [hlen]; norm_num, ?_⟩
  have h := c7_stride_indices ages1000 100 (by norm_num) (by rw [hlen]; norm_num)
  rw [h]
  apply List.map_congr_left
  intro j hj
  have hj100 : j < 100 := List.mem_range.1 hj
  rw [show (100 : Int).toNat = 100 from rfl, hlen]
  rw [show j * (1000 / 100) = 10 * j by omega]
  rw [ages1000, List.getD_eq_getElem?_getD, List.getElem?_map,
    List.getElem?_range (by omega)]
  rfl

/-- For nonpositive `maxPoints` and nonempty data, the loop pushes the
first element and immediately breaks (`sampled.length = 1 ≥ maxPoints`);
no guard rejects the argument. -/
theorem sampleData_nonpos_cons {α : Type} [Inhabited α] (d : α) (tl : List α) (mp : Int)
    (hmp : mp ≤ 0) : sampleData (d :: tl) mp = [d] := by
  have hlen : ((d :: tl).length : Int) = (tl.length : Int) + 1 := by simp
  rw [sampleData, if_neg (by omega)]
  show sampleLoop (d :: tl) _ mp (tl.length + 1) 0 [] = [d]
  rw [sampleLoop, if_pos (by simp)]
  simp only [List.nil_append, Int.toNat_zero, List.getD_cons_zero, List.length_cons,
    List.length_nil]
  rw [if_pos (by simp; omega)]

/-- `sampleData` on the empty dataset is empty for every `maxPoints`:
either the length test returns it unchanged or the loop never runs. -/
theorem sampleData_nil {α : Type} [Inhabited α] (mp : Int) :
    sampleData ([] : List α) mp = [] := by
  rw [sampleData]
  by_cases h : ((List.length ([] : List α)) : Int) ≤ mp
  · rw [if_pos h]
  · rw [if_neg h]
    simp [sampleLoop]

/-- C10: for `maxPoints ≤ 0` and nonempty data (so the length exceeds
`maxPoints`), `sampleData` returns the one-element dataset holding the
first element; the embedding is a total function — the source has no
throwing path. -/
theorem c10_nonpos_returns_first {α : Type} [Inhabited α] (d : α) (tl : List α) (mp : Int)
    (hmp : mp ≤ 0) : sampleData (d :: tl) mp = [d] :=
  sampleData_nonpos_cons d tl mp hmp

/-- Witness for C10 at a concrete input: two rows, `maxPoints = -2`. -/
theorem c10_nonpos_returns_first_witness :
    ((-2 : Int) ≤ 0) ∧ sampleData [oneRow, vNum 5] (-2) = [oneRow] :=
  ⟨by norm_num, c10_nonpos_returns_first oneRow [vNum 5] (-2) (by norm_num)⟩

/-- C2 counterexample: at `maxPoints = 0` on a one-row dataset the code's
`sampleData` returns a dataset (the row itself) and raises nothing, while
the sampler contract written in the spec fails with InvalidArgument. -/
theorem c2_counterexample :
    sampleData [oneRow] 0 = [oneRow] ∧
    sampleDataSpec [oneRow] 0 = Except.error SampleError.invalidArgument :=
  ⟨rfl, rfl⟩

/-- C2 amended: `sampleData` performs no validation of `maxPoints ≤ 0`; it
returns normally with the first element of the dataset (the empty dataset
for empty input). -/
theorem c2_amended_no_validation {α : Type} [Inhabited α] (data : List α) (mp : Int)
    (hmp : mp ≤ 0) : sampleData data mp = data.take 1 := by
  cases data with
  | nil => rw [sampleData_nil]; rfl
  | cons d tl => rw [sampleData_nonpos_cons d tl mp hmp]; rfl

/-- Witness for the amended C2 at a concrete input. -/
theorem c2_amended_no_validation_witness :
    ((-1 : Int) ≤ 0) ∧
    sampleData [oneRow, vNum 5] (-1) = ([oneRow, vNum 5] : List DataRow).take 1 :=
  ⟨by norm_num, c2_amended_no_validation _ _ (by norm_num)⟩

/-! ### The derived display dataset -/

/-- C3: for a nonempty raw dataset and a nonempty active X-axis key, the
display dataset is exactly the raw dataset sorted by that key and then
even-stride sampled with the fixed 100-point cap. -/
theorem c3_display_pipeline (raw : List DataRow) (key : String)
    (h1 : raw ≠ []) (h2 : key ≠ "") :
    displayData raw key = sampleData (sortDataByKey raw key) 100 := by
  rw [displayData, if_neg]
  rintro (h | h)
  · exact h1 (List.length_eq_zero.1 h)
  · exact h2 h

/-- Witness for C3 at a concrete input. -/
theorem c3_display_pipeline_witness :
    ([oneRow] : List DataRow) ≠ [] ∧ "Age" ≠ "" ∧
    displayData [oneRow] "Age" = sampleData (sortDataByKey [oneRow] "Age") 100 :=
  ⟨by simp, by decide, c3_display_pipeline [oneRow] "Age" (by simp) (by decide)⟩

/-- C4: with an unset (empty) X-axis key the display dataset is empty, no
matter what the raw dataset holds. -/
theorem c4_empty_key_empty_display (raw : List DataRow) :
    displayData raw "" = [] := by
  rw [displayData, if_pos (Or.inr rfl)]

/-- Witness for C4 on a nonempty raw dataset. -/
theorem c4_empty_key_empty_display_witness : displayData [oneRow] "" = [] :=
  c4_empty_key_empty_display [oneRow]

/-! ### Value coercion -/

/-- C5: `parseValue` keeps the empty string as `Text ""` and keeps every
string that is empty after trimming as text, unchanged — never `Number 0`
(nor any other number): the `value.trim() !== ""` conjunct blocks the
numeric branch even though JS `Number` maps whitespace-only strings to 0. -/
theorem c5_empty_and_whitespace_stay_text :
    parseValue "" = TypedValue.str "" ∧
    ∀ s : String, jsTrim s = "" → parseValue s = TypedValue.str s := by
  refine ⟨rfl, ?_⟩
  intro s hs
  by_cases h0 : s = ""
  · subst h0; rfl
  · cases h : jsToNumber s with
    | none => simp [parseValue, if_neg h0, h]
    | some n => simp [parseValue, if_neg h0, h, hs]

/-- Witness for C5 at the one-space string. -/
theorem c5_empty_and_whitespace_stay_text_witness :
    jsTrim " " = "" ∧ parseValue " " = TypedValue.str " " :=
  ⟨by decide, c5_empty_and_whitespace_stay_text.2 " " (by decide)⟩

/-! ### The key-aware sort -/

/-- C8: the spec's mixed-type scenario.  Values `[2, "10", 1]` at the key
sort ascending to `[1, "10", 2]` (the text `"10"` is compared lexically
with the stringified numbers, and `"1" < "10" < "2"`), not to the numeric
order `[1, 2, "10"]`. -/
theorem c8_mixed_sort_example :
    sortDataByKey [vNum 2, vStr "10", vNum 1] "v" = [vNum 1, vStr "10", vNum 2] ∧
    ([vNum 1, vStr "10", vNum 2] : List DataRow) ≠ [vNum 1, vNum 2, vStr "10"] := by
  exact ⟨by decide, by decide⟩

/-- C1 counterexample: on the mixed column with values `[2, 10, "a"]` the
code's sort leaves the two numbers in numeric order (`2` before `10`),
while ordering the whole column by lexical string comparison — the spec's
description, `specLexicalSortByKey` — would put `"10"` before `"2"`.  The
two disagree, so mixed columns are not sorted by one lexical pass. -/
theorem c1_counterexample :
    sortDataByKey mixedColumn "v" = [vNum 2, vNum 10, vStr "a"] ∧
    specLexicalSortByKey mixedColumn "v" = [vNum 10, vNum 2, vStr "a"] ∧
    sortDataByKey mixedColumn "v" ≠ specLexicalSortByKey mixedColumn "v" :=
  ⟨by decide, by decide, by decide⟩

/-- C1 amended: in a mixed column only the pairs involving at least one
text value are compared lexically on the stringified values; pairs of two
numbers are still compared numerically. -/
theorem c1_amended_pairwise_comparator :
    (∀ a b : ℚ, cmpVals (some (TypedValue.num a)) (some (TypedValue.num b)) = cmpQ a b) ∧
    (∀ v w : TypedValue,
      (∃ s, v = TypedValue.str s) ∨ (∃ s, w = TypedValue.str s) →
      cmpVals (some v) (some w) =
        localeCmp (jsStringOfVal (some v)) (jsStringOfVal (some w))) := by
  refine ⟨fun a b => rfl, ?_⟩
  intro v w h
  cases v with
  | str s => rfl
  | num a =>
    cases w with
    | str t => rfl
    | num b =>
      exfalso
      rcases h with ⟨s, hs⟩ | ⟨s, hs⟩ <;> exact TypedValue.noConfusion hs

/-- Witness for the amended C1: a number-number pair and a text-number
pair from the counterexample column. -/
theorem c1_amended_pairwise_comparator_witness :
    cmpVals (some (TypedValue.num 2)) (some (TypedValue.num 10)) = cmpQ 2 10 ∧
    cmpVals (some (TypedValue.str "a")) (some (TypedValue.num 1)) =
      localeCmp (jsStringOfVal (some (TypedValue.str "a")))
        (jsStringOfVal (some (TypedValue.num 1))) :=
  ⟨c1_amended_pairwise_comparator.1 2 10,
   c1_amended_pairwise_comparator.2 _ _ (Or.inl ⟨"a", rfl⟩)⟩

/-! ### Number printing and re-parsing: digit-level lemmas -/

/-- The fuel-based digit extraction agrees with `Nat.digits 10` whenever
the fuel covers the number. -/
theorem natDigitsRev_eq_digits : ∀ (fuel n : Nat), n ≤ fuel →
    natDigitsRev fuel n = Nat.digits 10 n := by
  intro fuel
  induction fuel with
  | zero =>
    intro n hn
    interval_cases n
    simp [natDigitsRev]
  | succ fuel ih =>
    intro n hn
    by_cases h0 : n = 0
    · subst h0; simp [natDigitsRev]
    · rw [show natDigitsRev (fuel + 1) n = n % 10 :: natDigitsRev fuel (n / 10) from by
        simp [natDigitsRev, h0]]
      rw [ih (n / 10) (by omega),
        Nat.digits_def' (by norm_num : (1:Nat) < 10) (Nat.pos_of_ne_zero h0)]

theorem digitChar_not_space {d : Nat} (hd : d < 10) : jsIsSpace (digitChar d) = false := by
  interval_cases d <;> decide

theorem digitChar_isDigit {d : Nat} (hd : d < 10) : (digitChar d).isDigit = true := by
  interval_cases d <;> decide

theorem digitChar_toNat {d : Nat} (hd : d < 10) : (digitChar d).toNat = 48 + d := by
  interval_cases d <;> decide

theorem digitChar_ne_plus {d : Nat} (hd : d < 10) : digitChar d ≠ '+' := by
  interval_cases d <;> decide

theorem digitChar_ne_minus {d : Nat} (hd : d < 10) : digitChar d ≠ '-' := by
  interval_cases d <;> decide

/-- Every character printed for a natural number is a decimal digit. -/
theorem renderNat_digits (n : Nat) : ∀ c ∈ renderNat n, ∃ d, d < 10 ∧ c = digitChar d := by
  intro c hc
  by_cases h0 : n = 0
  · subst h0
    simp [renderNat] at hc
    exact ⟨0, by norm_num, by rw [hc]; decide⟩
  · rw [renderNat, if_neg h0, natDigitsRev_eq_digits n n le_rfl] at hc
    rcases List.mem_map.1 hc with ⟨d, hd, rfl⟩
    exact ⟨d, Nat.digits_lt_base (by norm_num) (List.mem_reverse.1 hd), rfl⟩

theorem renderNat_ne_nil (n : Nat) : renderNat n ≠ [] := by
  by_cases h0 : n = 0
  · subst h0; simp [renderNat]
  · rw [renderNat, if_neg h0, natDigitsRev_eq_digits n n le_rfl]
    simp [Nat.digits_ne_nil_iff_ne_zero.2 h0]

/-- Horner evaluation of a digit string, with a running accumulator. -/
theorem digitsToNat_aux : ∀ (ds : List Nat) (acc : Nat), (∀ d ∈ ds, d < 10) →
    List.foldl (fun n c => 10 * n + (c.toNat - 48)) acc (ds.map digitChar) =
      acc * 10 ^ ds.length + Nat.ofDigits 10 ds.reverse := by
  intro ds
  induction ds with
  | nil => intro acc _; simp
  | cons d t ih =>
    intro acc h
    have hd : d < 10 := h d (List.mem_cons_self d t)
    simp only [List.map_cons, List.foldl_cons]
    rw [ih _ (fun x hx => h x (List.mem_cons_of_mem d hx)), digitChar_toNat hd]
    rw [List.reverse_cons, Nat.ofDigits_append, Nat.ofDigits_singleton]
    simp only [List.length_cons, List.length_reverse]
    have hcancel : 48 + d - 48 = d := by omega
    rw [hcancel]
    ring

/-- Digit strings evaluate to the number whose digits they are. -/
theorem digitsToNat_map (ds : List Nat) (h : ∀ d ∈ ds, d < 10) :
    digitsToNat (ds.map digitChar) = Nat.ofDigits 10 ds.reverse := by
  have := digitsToNat_aux ds 0 h
  simpa [digitsToNat] using this

/-- Printing then reading a natural number is the identity. -/
theorem digitsToNat_renderNat (n : Nat) : digitsToNat (renderNat n) = n := by
  by_cases h0 : n = 0
  · subst h0; decide
  · rw [renderNat, if_neg h0, natDigitsRev_eq_digits n n le_rfl]
    rw [digitsToNat_map _ (fun d hd => Nat.digits_lt_base (by norm_num) (List.mem_reverse.1 hd))]
    rw [List.reverse_reverse, Nat.ofDigits_digits]

/-- Leading zeros do not change the value of a digit string. -/
theorem digitsToNat_replicate_zero : ∀ (m : Nat) (l : List Char),
    digitsToNat (List.replicate m '0' ++ l) = digitsToNat l := by
  intro m
  induction m with
  | zero => intro l; simp
  | succ m ih =>
    intro l
    rw [List.replicate_succ]
    simp only [digitsToNat, List.cons_append, List.foldl_cons]
    have h0 : 10 * 0 + ('0'.toNat - 48) = 0 := rfl
    rw [h0]
    simpa [digitsToNat] using ih l

theorem fracChars_length {F k : Nat} (h : (renderNat F).length ≤ k) :
    (fracChars F k).length = k := by
  simp only [fracChars, List.length_append, List.length_replicate]
  omega

theorem fracChars_digits (F k : Nat) : ∀ c ∈ fracChars F k, ∃ d, d < 10 ∧ c = digitChar d := by
  intro c hc
  rcases List.mem_append.1 hc with h | h
  · have h0 : c = '0' := List.eq_of_mem_replicate h
    exact ⟨0, by norm_num, by rw [h0]; decide⟩
  · exact renderNat_digits F c h

theorem digitsToNat_fracChars (F k : Nat) : digitsToNat (fracChars F k) = F := by
  rw [fracChars, digitsToNat_replicate_zero, digitsToNat_renderNat]

/-- A number below `10 ^ k` prints with at most `k` digits (for `k ≥ 1`). -/
theorem renderNat_length_le {F k : Nat} (hF : F < 10 ^ k) (hk : 1 ≤ k) :
    (renderNat F).length ≤ k := by
  by_cases h0 : F = 0
  · subst h0
    simpa [renderNat] using hk
  · rw [renderNat, if_neg h0, natDigitsRev_eq_digits F F le_rfl,
      List.length_map, List.length_reverse]
    by_contra hc
    push_neg at hc
    have h1 : 10 ^ (Nat.digits 10 F).length ≤ 10 * F :=
      Nat.base_pow_length_digits_le 10 F (by norm_num) h0
    have h2 : 10 ^ (k + 1) ≤ 10 ^ (Nat.digits 10 F).length :=
      Nat.pow_le_pow_right (by norm_num) hc
    have h3 : 10 ^ (k + 1) = 10 * 10 ^ k := by ring
    omega

/-- Splitting a scan at a boundary: if every character of `l1` satisfies
`p` and the first character of `l2` (if any) does not, then `takeWhile`
stops exactly at the boundary. -/
theorem takeWhile_append_boundary {p : Char → Bool} :
    ∀ (l1 l2 : List Char), (∀ c ∈ l1, p c = true) →
      (∀ c, l2.head? = some c → p c = false) →
      (l1 ++ l2).takeWhile p = l1 ∧ (l1 ++ l2).dropWhile p = l2 := by
  intro l1
  induction l1 with
  | nil =>
    intro l2 _ h2
    cases l2 with
    | nil => simp
    | cons c t =>
      have hc := h2 c rfl
      simp [List.takeWhile_cons, List.dropWhile_cons, hc]
  | cons a t ih =>
    intro l2 h1 h2
    have ha : p a = true := h1 a (List.mem_cons_self a t)
    have iht := ih l2 (fun c hc => h1 c (List.mem_cons_of_mem a hc)) h2
    simp [List.takeWhile_cons, List.dropWhile_cons, ha, iht.1, iht.2]

theorem dropWhile_eq_self_of_all {p : Char → Bool} (l : List Char)
    (h : ∀ c ∈ l, p c = false) : l.dropWhile p = l := by
  cases l with
  | nil => rfl
  | cons c t => simp [List.dropWhile_cons, h c (List.mem_cons_self c t)]

/-- A list with no JS whitespace characters trims to itself. -/
theorem jsTrimList_id (l : List Char) (h : ∀ c ∈ l, jsIsSpace c = false) :
    jsTrimList l = l := by
  rw [jsTrimList, dropWhile_eq_self_of_all l h,
    dropWhile_eq_self_of_all _ (fun c hc => h c (List.mem_reverse.1 hc)),
    List.reverse_reverse]

/-- A denominator dividing some power of 10 divides `10 ^ k` for a `k`
bounded by the denominator itself (its 2- and 5-adic exponents are below
it). -/
theorem exists_scale_le {d : Nat} (hd : 0 < d) (hj : ∃ j, d ∣ 10 ^ j) :
    ∃ k, k ≤ d ∧ d ∣ 10 ^ k := by
  rcases hj with ⟨j, hj⟩
  have h10 : (10 : ℕ) ^ j = 2 ^ j * 5 ^ j := by
    rw [show (10 : ℕ) = 2 * 5 from rfl, mul_pow]
  rw [h10] at hj
  rcases Nat.dvd_mul.1 hj with ⟨d1, d2, h1, h2, hd12⟩
  rcases (Nat.dvd_prime_pow Nat.prime_two).1 h1 with ⟨a, _, rfl⟩
  rcases (Nat.dvd_prime_pow Nat.prime_five).1 h2 with ⟨b, _, rfl⟩
  refine ⟨d, le_rfl, ?_⟩
  have ha2 : 2 ^ a ≤ d := Nat.le_of_dvd hd ⟨5 ^ b, hd12.symm⟩
  have hb5 : 5 ^ b ≤ d := Nat.le_of_dvd hd ⟨2 ^ a, by rw [← hd12]; ring⟩
  have ha' : a ≤ d := by
    have := Nat.lt_two_pow a
    omega
  have hb' : b ≤ d := by
    have h1b : b < 2 ^ b := Nat.lt_two_pow b
    have h2b : 2 ^ b ≤ 5 ^ b := Nat.pow_le_pow_left (by norm_num) b
    omega
  have hdd : 2 ^ a * 5 ^ b ∣ 2 ^ d * 5 ^ d :=
    mul_dvd_mul (pow_dvd_pow 2 ha') (pow_dvd_pow 5 hb')
  rw [hd12] at hdd
  rw [show (10 : ℕ) = 2 * 5 from rfl, mul_pow]
  exact hdd

/-- `decScale` succeeds on every denominator that divides a power of 10,
and the scale it returns is exact. -/
theorem decScale_eq_some {d : Nat} (hd : 0 < d) (hj : ∃ j, d ∣ 10 ^ j) :
    ∃ k, decScale d = some k ∧ d ∣ 10 ^ k := by
  rcases exists_scale_le hd hj with ⟨k0, hk0, hdvd⟩
  have hsome : (decScale d).isSome := by
    rw [decScale, List.find?_isSome]
    refine ⟨k0, List.mem_range.2 (by omega), ?_⟩
    simp [beq_iff_eq, Nat.dvd_iff_mod_eq_zero.1 hdvd]
  rcases Option.isSome_iff_exists.1 hsome with ⟨k, hk⟩
  refine ⟨k, hk, ?_⟩
  have hp := List.find?_some hk
  simp only [beq_iff_eq] at hp
  exact Nat.dvd_iff_mod_eq_zero.2 hp

/-- A decimal literal's value is a natural number times an integer power
of 10. -/
theorem decValue_eq (ip fp : List Char) (e : Int) :
    decValue ip fp e =
      ((digitsToNat ip * 10 ^ fp.length + digitsToNat fp : ℕ) : ℚ) *
        10 ^ (e - (fp.length : ℤ)) := by
  rw [decValue, zpow_sub₀ (by norm_num : (10 : ℚ) ≠ 0), zpow_natCast]
  push_cast
  ring

/-- The denominator of `A · 10 ^ z` divides a power of 10. -/
theorem den_dvd_pow10 (A : ℕ) (z : ℤ) : ∃ j, ((A : ℚ) * 10 ^ z).den ∣ 10 ^ j := by
  rcases z with n | n
  · refine ⟨0, ?_⟩
    have h : ((A : ℚ) * 10 ^ (Int.ofNat n)) = ((A * 10 ^ n : ℕ) : ℚ) := by
      push_cast
      rw [show (Int.ofNat n) = (n : ℤ) from rfl, zpow_natCast]
    rw [h, Rat.den_natCast, pow_zero]
  · refine ⟨n + 1, ?_⟩
    have h1 : ((A : ℚ) * 10 ^ (Int.negSucc n)) = Rat.divInt (A : ℤ) ((10 ^ (n + 1) : ℕ) : ℤ) := by
      rw [Rat.divInt_eq_div, zpow_negSucc]
      push_cast
      ring
    rw [h1]
    have h2 := Rat.den_dvd (A : ℤ) ((10 ^ (n + 1) : ℕ) : ℤ)
    exact_mod_cast h2

/-- Every value a decimal literal denotes has a power-of-10 denominator. -/
theorem decValue_den_dvd (ip fp : List Char) (e : Int) :
    ∃ j, (decValue ip fp e).den ∣ 10 ^ j := by
  rw [decValue_eq]
  exact den_dvd_pow10 _ _

/-- Every value `readUnsigned` produces has a power-of-10 denominator. -/
theorem readUnsigned_den_dvd (cs : List Char) (q : ℚ) (h : readUnsigned cs = some q) :
    ∃ j, q.den ∣ 10 ^ j := by
  rw [readUnsigned] at h
  split at h
  · split at h
    · exact absurd h (by simp)
    · rcases Option.map_eq_some'.1 h with ⟨e, _, hv⟩
      rw [← hv]
      exact decValue_den_dvd _ _ _
  · split at h
    · exact absurd h (by simp)
    · rcases Option.map_eq_some'.1 h with ⟨e, _, hv⟩
      rw [← hv]
      exact decValue_den_dvd _ _ _

/-- Every number `jsToNumber` produces has a power-of-10 denominator: the
numbers in the pipeline are exact decimals. -/
theorem jsToNumber_den_dvd (s : String) (q : ℚ) (h : jsToNumber s = some q) :
    ∃ j, q.den ∣ 10 ^ j := by
  rw [jsToNumber] at h
  split at h
  · injection h with h
    exact ⟨0, by rw [← h]; decide⟩
  · split at h
    · exact readUnsigned_den_dvd _ _ h
    · split at h
      · rcases Option.map_eq_some'.1 h with ⟨p, hp, hv⟩
        rcases readUnsigned_den_dvd _ _ hp with ⟨j, hj⟩
        rw [← hv, Rat.neg_den]
        exact ⟨j, hj⟩
      · exact readUnsigned_den_dvd _ _ h

theorem isEmpty_false_of_ne_nil {l : List Char} (h : l ≠ []) : l.isEmpty = false := by
  cases l with
  | nil => exact absurd rfl h
  | cons a t => rfl

/-- Exactness of the printed mantissa: with `q.den ∣ 10 ^ k` and `0 ≤ q`,
the natural number `N = q.num · 10 ^ k / q.den` satisfies
`(N : ℚ) = q · 10 ^ k`. -/
theorem printN_eq (q : ℚ) (hq : 0 ≤ q) {k : Nat} (hdvd : q.den ∣ 10 ^ k) :
    ((q.num.toNat * 10 ^ k / q.den : ℕ) : ℚ) = q * 10 ^ k := by
  have hnum : 0 ≤ q.num := Rat.num_nonneg.2 hq
  have hden0 : ((q.den : ℚ)) ≠ 0 := by
    exact_mod_cast q.den_pos.ne'
  have hexact : q.num.toNat * 10 ^ k / q.den * q.den = q.num.toNat * 10 ^ k :=
    Nat.div_mul_cancel (Dvd.dvd.mul_left hdvd _)
  have hcast : ((q.num.toNat : ℕ) : ℚ) = (q.num : ℚ) := by
    exact_mod_cast congrArg (fun z : ℤ => (z : ℚ)) (Int.toNat_of_nonneg hnum)
  have h1 : ((q.num.toNat * 10 ^ k / q.den : ℕ) : ℚ) * (q.den : ℚ) =
      (q.num : ℚ) * 10 ^ k := by
    rw [← hcast]
    exact_mod_cast congrArg (fun n : ℕ => (n : ℚ)) hexact
  have h2 : (q.num : ℚ) = q * q.den := (Rat.mul_den_eq_num q).symm
  apply mul_right_cancel₀ hden0
  rw [h1, h2]
  ring

/-- Unfolding the printer once the scale is known. -/
theorem renderPosQ_eq_of_scale {p : ℚ} {k : Nat} (hks : decScale p.den = some k) :
    renderPosQ p = (if k = 0 then renderNat (p.num.toNat * 10 ^ k / p.den)
      else renderNat ((p.num.toNat * 10 ^ k / p.den) / 10 ^ k) ++
        '.' :: fracChars ((p.num.toNat * 10 ^ k / p.den) % 10 ^ k) k) := by
  unfold renderPosQ
  rw [hks]

/-- Printing a nonnegative exact decimal and reading it back recovers the
value exactly. -/
theorem readUnsigned_renderPosQ (p : ℚ) (hp : 0 ≤ p) (hj : ∃ j, p.den ∣ 10 ^ j) :
    readUnsigned (renderPosQ p) = some p := by
  rcases decScale_eq_some p.den_pos hj with ⟨k, hks, hdvd⟩
  have hNq : ((p.num.toNat * 10 ^ k / p.den : ℕ) : ℚ) = p * 10 ^ k := printN_eq p hp hdvd
  rw [renderPosQ_eq_of_scale hks]
  by_cases hk0 : k = 0
  · subst hk0
    rw [if_pos rfl]
    set N := p.num.toNat * 10 ^ 0 / p.den with hN
    have hall : ∀ c ∈ renderNat N, Char.isDigit c = true := by
      intro c hc
      rcases renderNat_digits N c hc with ⟨d, hd, rfl⟩
      exact digitChar_isDigit hd
    have hsplit := takeWhile_append_boundary (renderNat N) [] hall
      (by intro c hc; simp at hc)
    rw [List.append_nil] at hsplit
    unfold readUnsigned
    split
    · rename_i r2 heq
      rw [hsplit.2] at heq
      exact absurd heq (by simp)
    · rw [if_neg (by simp [hsplit.1, isEmpty_false_of_ne_nil (renderNat_ne_nil N)])]
      rw [hsplit.2, show readExpPart ([] : List Char) = some 0 from rfl, Option.map_some']
      refine congrArg some ?_
      rw [hsplit.1, decValue, digitsToNat_renderNat,
        show digitsToNat [] = 0 from rfl]
      rw [pow_zero, mul_one] at hNq
      simp only [List.length_nil, pow_zero, zpow_zero, mul_one, div_one,
        Nat.cast_zero, add_zero]
      exact hNq
  · rw [if_neg hk0]
    set N := p.num.toNat * 10 ^ k / p.den with hN
    set I := N / 10 ^ k with hI
    set F := N % 10 ^ k with hF
    have hklt : 0 < k := Nat.pos_of_ne_zero hk0
    have hFlt : F < 10 ^ k := Nat.mod_lt _ (pow_pos (by norm_num) k)
    have hlenF : (renderNat F).length ≤ k := renderNat_length_le hFlt hklt
    have hds2len : (fracChars F k).length = k := fracChars_length hlenF
    have hds2ne : fracChars F k ≠ [] := by
      intro hnil
      rw [hnil] at hds2len
      simp at hds2len
      omega
    have hall1 : ∀ c ∈ renderNat I, Char.isDigit c = true := by
      intro c hc
      rcases renderNat_digits I c hc with ⟨d, hd, rfl⟩
      exact digitChar_isDigit hd
    have hall2 : ∀ c ∈ fracChars F k, Char.isDigit c = true := by
      intro c hc
      rcases fracChars_digits F k c hc with ⟨d, hd, rfl⟩
      exact digitChar_isDigit hd
    have hsplit1 := takeWhile_append_boundary (renderNat I) ('.' :: fracChars F k) hall1
      (by intro c hc; injection hc with hc; rw [← hc]; decide)
    have hsplit2 := takeWhile_append_boundary (fracChars F k) [] hall2
      (by intro c hc; simp at hc)
    rw [List.append_nil] at hsplit2
    unfold readUnsigned
    split
    · rename_i r2 heq
      rw [hsplit1.2] at heq
      injection heq with _ heq2
      subst heq2
      rw [if_neg (by simp [hsplit1.1, isEmpty_false_of_ne_nil (renderNat_ne_nil I)])]
      rw [hsplit2.2, show readExpPart ([] : List Char) = some 0 from rfl, Option.map_some']
      refine congrArg some ?_
      rw [hsplit1.1, hsplit2.1, decValue]
      rw [digitsToNat_renderNat, digitsToNat_fracChars, hds2len, zpow_zero, mul_one]
      have hNsum : I * 10 ^ k + F = N := by
        rw [hI, hF, Nat.mul_comm]
        exact Nat.div_add_mod N (10 ^ k)
      have h10 : ((10 : ℚ) ^ k) ≠ 0 := by positivity
      rw [div_eq_iff h10]
      calc ((I : ℕ) : ℚ) * 10 ^ k + ((F : ℕ) : ℚ)
          = ((I * 10 ^ k + F : ℕ) : ℚ) := by push_cast; ring
        _ = ((N : ℕ) : ℚ) := by rw [hNsum]
        _ = p * 10 ^ k := hNq
    · rename_i hne
      exact absurd hsplit1.2 (hne (fracChars F k))

/-- Every printed character is a digit or the decimal point. -/
theorem renderPosQ_chars (p : ℚ) :
    ∀ c ∈ renderPosQ p, (∃ d, d < 10 ∧ c = digitChar d) ∨ c = '.' := by
  intro c hc
  cases hks : decScale p.den with
  | none =>
    unfold renderPosQ at hc
    rw [hks] at hc
    simp at hc
    exact Or.inl ⟨0, by norm_num, by rw [hc]; decide⟩
  | some k =>
    rw [renderPosQ_eq_of_scale hks] at hc
    by_cases hk0 : k = 0
    · rw [if_pos hk0] at hc
      exact Or.inl (renderNat_digits _ c hc)
    · rw [if_neg hk0] at hc
      rcases List.mem_append.1 hc with h | h
      · exact Or.inl (renderNat_digits _ c h)
      · rcases List.mem_cons.1 h with h | h
        · exact Or.inr h
        · exact Or.inl (fracChars_digits _ _ c h)

theorem renderPosQ_not_space (p : ℚ) : ∀ c ∈ renderPosQ p, jsIsSpace c = false := by
  intro c hc
  rcases renderPosQ_chars p c hc with ⟨d, hd, rfl⟩ | rfl
  · exact digitChar_not_space hd
  · decide

/-- The printed form of a nonnegative number starts with a digit. -/
theorem renderPosQ_head (p : ℚ) :
    ∃ d rest, d < 10 ∧ renderPosQ p = digitChar d :: rest := by
  cases hks : decScale p.den with
  | none =>
    refine ⟨0, [], by norm_num, ?_⟩
    unfold renderPosQ
    rw [hks]
    rfl
  | some k =>
    rw [renderPosQ_eq_of_scale hks]
    by_cases hk0 : k = 0
    · rw [if_pos hk0]
      obtain ⟨c, t, hct⟩ := List.exists_cons_of_ne_nil (renderNat_ne_nil _)
      obtain ⟨d, hd, hcd⟩ := renderNat_digits _ c (by rw [hct]; exact List.mem_cons_self _ _)
      exact ⟨d, t, hd, by rw [hct, hcd]⟩
    · rw [if_neg hk0]
      obtain ⟨c, t, hct⟩ :=
        List.exists_cons_of_ne_nil (renderNat_ne_nil (p.num.toNat * 10 ^ k / p.den / 10 ^ k))
      obtain ⟨d, hd, hcd⟩ := renderNat_digits _ c (by rw [hct]; exact List.mem_cons_self _ _)
      refine ⟨d, t ++ '.' :: fracChars (p.num.toNat * 10 ^ k / p.den % 10 ^ k) k, hd, ?_⟩
      rw [hct, hcd]
      rfl

/-- Dispatch of `jsToNumber` once the trimmed input and its head are
known: a head that is no sign character goes to the unsigned reader. -/
theorem jsToNumber_eq_readUnsigned_of (s : String) (c : Char) (rest : List Char)
    (htrim : jsTrimList s.data = c :: rest) (hplus : c ≠ '+') (hminus : c ≠ '-') :
    jsToNumber s = readUnsigned (c :: rest) := by
  unfold jsToNumber
  rw [htrim]
  simp [hplus, hminus]

/-- Dispatch of `jsToNumber` for a minus-sign head. -/
theorem jsToNumber_eq_neg_of (s : String) (rest : List Char)
    (htrim : jsTrimList s.data = '-' :: rest) :
    jsToNumber s = (readUnsigned rest).map (fun q => -q) := by
  unfold jsToNumber
  rw [htrim]
  simp

/-- Re-parsing the printed form of an exact-decimal number recovers it. -/
theorem jsToNumber_jsNumToString (q : ℚ) (hj : ∃ j, q.den ∣ 10 ^ j) :
    jsToNumber (jsNumToString q) = some q := by
  rcases le_or_lt 0 q with hq | hq
  · rw [jsNumToString, if_neg (not_lt.2 hq)]
    obtain ⟨d, rest, hd, hshape⟩ := renderPosQ_head q
    have htrim : jsTrimList (String.mk (renderPosQ q)).data = digitChar d :: rest := by
      show jsTrimList (renderPosQ q) = _
      rw [jsTrimList_id _ (renderPosQ_not_space q), hshape]
    rw [jsToNumber_eq_readUnsigned_of _ _ _ htrim (digitChar_ne_plus hd)
      (digitChar_ne_minus hd), ← hshape]
    exact readUnsigned_renderPosQ q hq hj
  · rw [jsNumToString, if_pos hq]
    have htrim : jsTrimList (String.mk ('-' :: renderPosQ (-q))).data =
        '-' :: renderPosQ (-q) := by
      show jsTrimList ('-' :: renderPosQ (-q)) = _
      refine jsTrimList_id _ ?_
      intro c hc
      rcases List.mem_cons.1 hc with rfl | hc
      · decide
      · exact renderPosQ_not_space (-q) c hc
    rw [jsToNumber_eq_neg_of _ _ htrim]
    have hneg : readUnsigned (renderPosQ (-q)) = some (-q) :=
      readUnsigned_renderPosQ (-q) (by linarith) (by rw [Rat.neg_den]; exact hj)
    rw [hneg, Option.map_some', neg_neg]

theorem renderPosQ_ne_nil (p : ℚ) : renderPosQ p ≠ [] := by
  obtain ⟨d, rest, _, h⟩ := renderPosQ_head p
  rw [h]
  exact List.cons_ne_nil _ _

/-- The printed number trims to itself and is never the empty string. -/
theorem jsNumToString_data_trim (q : ℚ) :
    jsTrimList (jsNumToString q).data = (jsNumToString q).data ∧
      (jsNumToString q).data ≠ [] := by
  rw [jsNumToString]
  by_cases hq : q < 0
  · rw [if_pos hq]
    constructor
    · show jsTrimList ('-' :: renderPosQ (-q)) = _
      refine jsTrimList_id _ ?_
      intro c hc
      rcases List.mem_cons.1 hc with rfl | hc
      · decide
      · exact renderPosQ_not_space (-q) c hc
    · exact List.cons_ne_nil _ _
  · rw [if_neg hq]
    exact ⟨jsTrimList_id _ (renderPosQ_not_space q), renderPosQ_ne_nil q⟩

theorem jsNumToString_ne_empty (q : ℚ) : jsNumToString q ≠ "" := by
  intro h
  have hd := congrArg String.data h
  rw [show String.data "" = [] from rfl] at hd
  exact (jsNumToString_data_trim q).2 hd

theorem jsTrim_jsNumToString_ne_empty (q : ℚ) : jsTrim (jsNumToString q) ≠ "" := by
  rw [jsTrim, (jsNumToString_data_trim q).1]
  show jsNumToString q ≠ ""
  exact jsNumToString_ne_empty q

/-- What a successful coercion by `parseValue` says about `Number()`. -/
theorem parseValue_num_inv {v : String} {q : ℚ} (h : parseValue v = TypedValue.num q) :
    jsToNumber v = some q := by
  by_cases h0 : v = ""
  · subst h0
    simp [parseValue] at h
  · unfold parseValue at h
    rw [if_neg h0] at h
    cases hjn : jsToNumber v with
    | none => rw [hjn] at h; simp at h
    | some n =>
      rw [hjn] at h
      by_cases ht : jsTrim v = ""
      · simp [ht] at h
      · simp [ht] at h
        rw [h]

/-- C9: whenever `parseValue` coerces a text value to the number `q`,
stringifying `q` and coercing again yields the very same number: the
printer emits a nonempty, whitespace-free decimal numeral that re-reads to
the exact same value. -/
theorem c9_numeric_roundtrip (v : String) (q : ℚ)
    (h : parseValue v = TypedValue.num q) :
    parseValue (jsNumToString q) = TypedValue.num q := by
  have hq : jsToNumber v = some q := parseValue_num_inv h
  have hj : ∃ j, q.den ∣ 10 ^ j := jsToNumber_den_dvd v q hq
  have hrt : jsToNumber (jsNumToString q) = some q := jsToNumber_jsNumToString q hj
  unfold parseValue
  rw [if_neg (jsNumToString_ne_empty q), hrt]
  simp [jsTrim_jsNumToString_ne_empty q]

/-- The numeral `"42"` coerces to the number 42 (computed through the
model's reader; the rational arithmetic is evaluated by `norm_num`). -/
theorem parseValue_42 : parseValue "42" = TypedValue.num 42 := by
  have hds : digitsToNat ['4', '2'] = 42 := by decide
  have hval : decValue ['4', '2'] [] 0 = 42 := by
    rw [decValue, hds, show digitsToNat [] = 0 from rfl]
    norm_num
  have htrim : jsTrimList "42".data = '4' :: ['2'] := by decide
  have h42 : jsToNumber "42" = some 42 := by
    rw [jsToNumber_eq_readUnsigned_of "42" '4' ['2'] htrim (by decide) (by decide)]
    unfold readUnsigned
    rw [show List.dropWhile Char.isDigit ('4' :: ['2']) = ([] : List Char) from by decide]
    rw [show List.takeWhile Char.isDigit ('4' :: ['2']) = ['4', '2'] from by decide]
    simp [readExpPart, hval]
  unfold parseValue
  rw [if_neg (by decide : ¬("42" : String) = ""), h42]
  simp [show jsTrim "42" ≠ "" from by decide]

/-- Witness for C9: the numeral `"42"` coerces to 42, whose printed form
re-coerces to 42. -/
theorem c9_numeric_roundtrip_witness :
    parseValue "42" = TypedValue.num 42 ∧
    parseValue (jsNumToString 42) = TypedValue.num 42 :=
  ⟨parseValue_42, c9_numeric_roundtrip "42" 42 parseValue_42⟩
